import Mathlib

/-!
Verification of the dependency-graph construction and reachability engine of the
MONOMAX repository (frontend/src/utils/graphBuilder.js), shallowly embedded in Lean.

JavaScript strings are modelled as Lean `String` and the string operations used by
the code (startsWith, endsWith, includes, split, charAt-style containment) are
defined over `String.data` so that everything evaluates by kernel reduction.
JavaScript `Map` is modelled as an insertion-ordered association list in which
`set` on an existing key updates the value in place, matching Map iteration order.
A possibly-missing field of a parsed record is an `Option`; reading a field of
`undefined` (a TypeError in JavaScript) is modelled as `Except.error ()`.
Line numbers are `Nat`, with `0` encoding a missing/falsy line, matching every
use the code makes of lines (`x || d` defaulting and `<`, `>=` comparisons).
-/

/-- JavaScript `String.prototype.startsWith`, over code points. -/
def strStartsWith (s pre : String) : Bool := pre.data.isPrefixOf s.data

/-- JavaScript `String.prototype.endsWith`, over code points. -/
def strEndsWith (s post : String) : Bool := post.data.isSuffixOf s.data

/-- JavaScript `String.prototype.includes` with a single-character argument. -/
def strHasChar (s : String) (c : Char) : Bool := s.data.contains c

/-- JavaScript `String.prototype.includes` (substring test). -/
def strIncludes (s sub : String) : Bool := s.data.tails.any (fun t => sub.data.isPrefixOf t)

/-- Helper for `splitChar`: accumulates the current segment in reverse. -/
def splitCharAux (c : Char) : List Char → List Char → List String
  | [], acc => [String.mk acc.reverse]
  | x :: xs, acc =>
    if x = c then String.mk acc.reverse :: splitCharAux c xs []
    else splitCharAux c xs (x :: acc)

/-- JavaScript `String.prototype.split` with a single-character separator. -/
def splitChar (s : String) (c : Char) : List String := splitCharAux c s.data []

/-- A function declaration of a parsed file: `{ name, line }`.
`line = 0` encodes a missing/falsy line number. -/
structure FunctionDecl where
  name : String
  line : Nat
deriving DecidableEq

/-- An import of a parsed file: `{ source, type }`. -/
structure ImportRef where
  source : String
  itype : String
deriving DecidableEq

/-- An observed call site of a parsed file: `{ name, line }`. -/
structure CallSite where
  name : String
  line : Nat
deriving DecidableEq

/-- A parsed-file record as it arrives from extraction.  The collections are
`Option`s: a malformed record may lack them, and the JavaScript code reads
`file.functions.length` / `file.imports.length` unguardedly (a TypeError when
missing) while `file.functionCalls` is guarded by `if (!file.functionCalls)`. -/
structure RawRecord where
  filename : String
  functions : Option (List FunctionDecl)
  imports : Option (List ImportRef)
  functionCalls : Option (List CallSite)
deriving DecidableEq

/-- A record all of whose required collections are present; `functionCalls`
defaults to the empty list, as the guarded JavaScript access does. -/
structure CRecord where
  filename : String
  functions : List FunctionDecl
  imports : List ImportRef
  functionCalls : List CallSite
deriving DecidableEq

/-- Payload stored on a graph node by `buildDependencyGraph` (the redundant `id`
field is the node key itself and is omitted; the constant `label` strings of the
JavaScript object literals are folded into the constructors). -/
inductive NodeData where
  | file (label : String) (filename : String) (functionCount : Nat)
      (importCount : Nat) (size : Nat)
  | func (label : String) (filename : String) (functionName : String)
      (line : Nat) (parentFile : String)
deriving DecidableEq

/-- Payload stored on a graph edge, discriminated by the `type` field. -/
inductive EdgeData where
  | contains
  | imports (source : String) (importType : String)
  | calls (line : Nat)
deriving DecidableEq

/-- The used fragment of the graphlib directed graph: insertion-ordered node and
edge lists with unique keys (graphlib `setNode`/`setEdge` overwrite in place).
Every `setEdge` in this codebase is on endpoints already created by `setNode`. -/
structure Graph where
  nodes : List (String × NodeData)
  edges : List (String × String × EdgeData)
deriving DecidableEq

def graphEmpty : Graph := ⟨[], []⟩

/-- graphlib `setNode`: update the payload in place if the key exists, else append. -/
def setNode (g : Graph) (id : String) (d : NodeData) : Graph :=
  { g with nodes :=
      if g.nodes.any (fun n => n.1 = id) then
        g.nodes.map (fun n => if n.1 = id then (id, d) else n)
      else g.nodes ++ [(id, d)] }

/-- graphlib `setEdge`: update the payload in place if the `(v, w)` key exists,
else append. -/
def setEdge (g : Graph) (v w : String) (d : EdgeData) : Graph :=
  { g with edges :=
      if g.edges.any (fun e => e.1 = v ∧ e.2.1 = w) then
        g.edges.map (fun e => if e.1 = v ∧ e.2.1 = w then (v, w, d) else e)
      else g.edges ++ [(v, w, d)] }

/-- JavaScript `Map` from strings to strings: insertion-ordered association list. -/
abbrev MapS := List (String × String)

/-- JavaScript `Map.prototype.get` (absent key gives `undefined`, modelled as `none`). -/
def mget (m : MapS) (k : String) : Option String :=
  (m.find? (fun e => e.1 = k)).map (fun e => e.2)

/-- JavaScript `Map.prototype.set`: update in place if the key exists (keeping its
insertion position), else append. -/
def mset (m : MapS) (k v : String) : MapS :=
  if m.any (fun e => e.1 = k) then m.map (fun e => if e.1 = k then (k, v) else e)
  else m ++ [(k, v)]

/-- The extension probe list of `resolveImportPath`. -/
def relativeExtensions : List String :=
  ["", ".js", ".jsx", ".ts", ".tsx", ".json", "/index.js", "/index.ts"]

/-- The `..` pop / segment push normalization of a relative import specifier
against the directory of the importing file (`resolveImportPath`, first half). -/
def normalizeRelative (currentFile importPath : String) : String :=
  let currentDir := (splitChar currentFile '/').dropLast
  let importParts := splitChar importPath '/'
  let resolvedParts := importParts.foldl
    (fun acc part =>
      if part = ".." then acc.dropLast
      else if part ≠ "." then acc ++ [part]
      else acc)
    currentDir
  String.intercalate "/" resolvedParts

/-- The filter predicate of the bare-specifier branch of `resolveImportPath`. -/
def bareImportMatch (importPath : String) (file : String) : Bool :=
  strIncludes file importPath ||
  strEndsWith file ( "/" ++ importPath ++ ".js") ||
  strEndsWith file ( "/" ++ importPath ++ ".ts") ||
  strEndsWith file ( "/" ++ importPath ++ "/index.js") ||
  strEndsWith file ( "/" ++ importPath ++ "/index.ts")

/-- The function `resolveImportPath(importPath, currentFile, allFiles)`.  The JavaScript
return type is string-or-null, modelled as `Option String`; note that every
code path in fact returns a string. -/
def resolveImportPath (importPath currentFile : String) (allFiles : List String) :
    Option String :=
  if strStartsWith importPath "./" || strStartsWith importPath "../" then
    let resolved := normalizeRelative currentFile importPath
    match relativeExtensions.find? (fun ext => allFiles.contains (resolved ++ ext)) with
    | some ext => some (resolved ++ ext)
    | none => some (resolved ++ ".js")
  else
    match allFiles.filter (bareImportMatch importPath) with
    | p :: _ => some p
    | [] => some importPath

/-- The sort `functions.sort((a, b) => (a.line || 0) - (b.line || 0))`: a stable
ascending sort by line (JavaScript `Array.prototype.sort` is stable).  The
JavaScript sort mutates the array in place; callers of `sortByLine` thread the
returned list back into the record to model that mutation. -/
def sortByLine (functions : List FunctionDecl) : List FunctionDecl :=
  List.insertionSort (fun a b => a.line ≤ b.line) functions

/-- The scan loop of `findContainingFunction` over the sorted declarations:
return the first `f` with `f.line ≤ line` and `line` strictly below the next
declaration line (no next declaration = positive infinity). -/
def findLoop (line : Nat) : List FunctionDecl → Option FunctionDecl
  | [] => none
  | [f] => if f.line ≤ line then some f else none
  | f :: g :: fs =>
    if f.line ≤ line ∧ line < g.line then some f else findLoop line (g :: fs)

/-- The function `findContainingFunction(functions, line)`.  Returns the result together
with the post-call state of the `functions` array (the in-place sort). -/
def findContainingFunction (functions : List FunctionDecl) (line : Nat) :
    Option FunctionDecl × List FunctionDecl :=
  if line = 0 ∨ functions.isEmpty then (none, functions)
  else
    let sortedFunctions := sortByLine functions
    match findLoop line sortedFunctions with
    | some f => (some f, sortedFunctions)
    | none => (sortedFunctions.getLast?, sortedFunctions)

/-- Check one record the way pass 1 of `buildDependencyGraph` dereferences it:
`file.functions.length` and `file.imports.length` throw on a missing
collection, while `functionCalls` is guarded and defaults to empty. -/
def checkRecord (r : RawRecord) : Except Unit CRecord :=
  match r.functions, r.imports with
  | some fs, some is => .ok ⟨r.filename, fs, is, r.functionCalls.getD []⟩
  | _, _ => .error ()

def checkRecords : List RawRecord → Except Unit (List CRecord)
  | [] => .ok []
  | r :: rs =>
    match checkRecord r, checkRecords rs with
    | .ok c, .ok cs => .ok (c :: cs)
    | .error e, _ => .error e
    | _, .error e => .error e

/-- Pass 1, inner loop body: one function node, its two `functionMap` entries
and its `contains` edge. -/
def pass1Function (filename fileId : String) (acc : Graph × MapS)
    (p : Nat × FunctionDecl) : Graph × MapS :=
  let idx := p.1
  let func := p.2
  let functionId := "func:" ++ filename ++ ":" ++ func.name ++ ":" ++
    toString (if func.line = 0 then idx else func.line)
  let g := setNode acc.1 functionId
    (.func func.name filename func.name (if func.line = 0 then idx + 1 else func.line)
      fileId)
  let fnm := mset (mset acc.2 (filename ++ ":" ++ func.name) functionId)
    func.name functionId
  (setEdge g fileId functionId .contains, fnm)

/-- Pass 1, outer loop body: the file node, its `fileMap` entry and all its
function nodes.  The accumulator is (graph, fileMap, functionMap). -/
def pass1File (acc : Graph × MapS × MapS) (file : CRecord) : Graph × MapS × MapS :=
  let fileId := "file:" ++ file.filename
  let lastSeg := (splitChar file.filename '/').getLast?.getD ""
  let fileName := if lastSeg = "" then file.filename else lastSeg
  let g := setNode acc.1 fileId
    (.file fileName file.filename file.functions.length file.imports.length
      (file.functions.length + file.imports.length))
  let fm := mset acc.2.1 file.filename fileId
  let r := file.functions.enum.foldl (pass1Function file.filename fileId) (g, acc.2.2)
  (r.1, fm, r.2)

def pass1 (files : List CRecord) : Graph × MapS × MapS :=
  files.foldl pass1File (graphEmpty, [], [])

/-- Pass 2, inner loop body: resolve one import and add an `imports` edge when
the target is a known, distinct file. -/
def pass2Import (fm : MapS) (filename sourceFileId : String) (g : Graph)
    (imp : ImportRef) : Graph :=
  let resolvedPath := resolveImportPath imp.source filename (fm.map (fun e => e.1))
  let targetFileId := resolvedPath.bind (fun rp => mget fm rp)
  match targetFileId with
  | some tid =>
    if sourceFileId ≠ tid then setEdge g sourceFileId tid (.imports imp.source imp.itype)
    else g
  | none => g

def pass2File (fm : MapS) (g : Graph) (file : CRecord) : Graph :=
  match mget fm file.filename with
  | none => g
  | some sourceFileId => file.imports.foldl (pass2Import fm file.filename sourceFileId) g

def pass2 (fm : MapS) (g : Graph) (files : List CRecord) : Graph :=
  files.foldl (pass2File fm) g

/-- Call-target resolution of pass 3: the same-file qualified key first, then
the first `functionMap` entry whose key contains `:` and ends in `:name`. -/
def callTarget (fnm : MapS) (filename : String) (call : CallSite) : Option String :=
  match mget fnm (filename ++ ":" ++ call.name) with
  | some t => some t
  | none =>
    (fnm.find? (fun e => strHasChar e.1 ':' && strEndsWith e.1 ( ":" ++ call.name))).map
      (fun e => e.2)

/-- Pass 3, inner loop body: resolve one call site, find the containing
function, and add a `calls` edge when source and target are distinct.  The
accumulator threads the file's (mutable) functions array. -/
def pass3Call (fnm : MapS) (filename : String) (acc : Graph × List FunctionDecl)
    (call : CallSite) : Graph × List FunctionDecl :=
  match callTarget fnm filename call with
  | none => acc
  | some tid =>
    let fc := findContainingFunction acc.2 call.line
    match fc.1 with
    | none => (acc.1, fc.2)
    | some callingFunction =>
      match mget fnm (filename ++ ":" ++ callingFunction.name) with
      | none => (acc.1, fc.2)
      | some cid =>
        if cid ≠ tid then (setEdge acc.1 cid tid (.calls call.line), fc.2)
        else (acc.1, fc.2)

/-- Pass 3, outer loop body.  The accumulator carries the graph and the final
state of the records processed so far (their functions arrays may have been
reordered in place by `findContainingFunction`). -/
def pass3File (fnm : MapS) (acc : Graph × List CRecord) (file : CRecord) :
    Graph × List CRecord :=
  let r := file.functionCalls.foldl (pass3Call fnm file.filename) (acc.1, file.functions)
  (r.1, acc.2 ++ [{ file with functions := r.2 }])

def pass3 (fnm : MapS) (g : Graph) (files : List CRecord) : Graph × List CRecord :=
  files.foldl (pass3File fnm) (g, [])

/-- The function `buildDependencyGraph(parsedFiles)`.  Returns the graph together with the
final state of the input records (JavaScript mutates them in place); a record
with a missing `functions` or `imports` collection raises a TypeError, which is
the `Except.error` case. -/
def buildDependencyGraph (parsedFiles : List RawRecord) :
    Except Unit (Graph × List CRecord) :=
  match checkRecords parsedFiles with
  | .error e => .error e
  | .ok files =>
    let p1 := pass1 files
    let g2 := pass2 p1.2.1 p1.1 files
    let p3 := pass3 p1.2.2 g2 files
    .ok (p3.1, p3.2)

/-- Discriminators mirroring the `type` field comparisons of `getGraphStats`. -/
def isFileData : NodeData → Bool
  | .file .. => true
  | _ => false

def isFuncData : NodeData → Bool
  | .func .. => true
  | _ => false

def isImportsData : EdgeData → Bool
  | .imports .. => true
  | _ => false

def isCallsData : EdgeData → Bool
  | .calls .. => true
  | _ => false

def isContainsData : EdgeData → Bool
  | .contains => true
  | _ => false

structure GraphStats where
  totalNodes : Nat
  totalEdges : Nat
  fileNodes : Nat
  functionNodes : Nat
  importEdges : Nat
  callEdges : Nat
  containsEdges : Nat
deriving DecidableEq

/-- The function `getGraphStats(graph)`: pure counting over the node and edge collections. -/
def getGraphStats (g : Graph) : GraphStats :=
  { totalNodes := g.nodes.length
    totalEdges := g.edges.length
    fileNodes := (g.nodes.filter (fun n => isFileData n.2)).length
    functionNodes := (g.nodes.filter (fun n => isFuncData n.2)).length
    importEdges := (g.edges.filter (fun e => isImportsData e.2.2)).length
    callEdges := (g.edges.filter (fun e => isCallsData e.2.2)).length
    containsEdges := (g.edges.filter (fun e => isContainsData e.2.2)).length }

/-- graphlib `successors(v)` (with `|| []` for an unknown node, as the callers
write it): targets of the out-edges of `v`. -/
def successorsOf (g : Graph) (v : String) : List String :=
  (g.edges.filter (fun e => e.1 = v)).map (fun e => e.2.1)

/-- graphlib `predecessors(v)` (with `|| []`): sources of the in-edges of `v`. -/
def predecessorsOf (g : Graph) (v : String) : List String :=
  (g.edges.filter (fun e => e.2.1 = v)).map (fun e => e.1)

/-- JavaScript `Set.prototype.add`: append if absent (Sets iterate in insertion
order, and `Array.from` returns that order). -/
def sinsert (x : String) (l : List String) : List String :=
  if x ∈ l then l else l ++ [x]

/-- The recursive `dfs` closure shared by `findDownstreamNodes` and
`findUpstreamNodes`, parameterized by the neighbour function.  The JavaScript
recursion terminates because the visited set grows; here the same bound is
made explicit as fuel, and the entry points pass enough fuel that it is never
exhausted (every recursive call is on an edge endpoint). -/
def dfsGo (succ : String → List String) :
    Nat → String → List String → List String → List String × List String
  | 0, _, visited, acc => (visited, acc)
  | fuel + 1, nodeId, visited, acc =>
    if nodeId ∈ visited then (visited, acc)
    else
      (succ nodeId).foldl (fun p s => dfsGo succ fuel s p.1 (sinsert s p.2))
        (sinsert nodeId visited, acc)

/-- The function `findDownstreamNodes(graph, startNodeId)`. -/
def findDownstreamNodes (graph : Graph) (startNodeId : String) : List String :=
  (dfsGo (successorsOf graph) (graph.edges.length + 2) startNodeId [] []).2

/-- The function `findUpstreamNodes(graph, startNodeId)`. -/
def findUpstreamNodes (graph : Graph) (startNodeId : String) : List String :=
  (dfsGo (predecessorsOf graph) (graph.edges.length + 2) startNodeId [] []).2

/-- Nonempty-path reachability along a neighbour function: the set that the
depth-first traversal is meant to compute. -/
inductive ReachPlus (succ : String → List String) : String → String → Prop
  | head {a b : String} : b ∈ succ a → ReachPlus succ a b
  | tail {a b c : String} : ReachPlus succ a b → c ∈ succ b → ReachPlus succ a c

/-! ## Basic lemmas about the traversal helpers -/

theorem mem_sinsert {a x : String} {l : List String} :
    a ∈ sinsert x l ↔ a = x ∨ a ∈ l := by
  unfold sinsert
  by_cases h : x ∈ l
  · simp only [if_pos h]
    constructor
    · exact Or.inr
    · rintro (rfl | ha)
      · exact h
      · exact ha
  · simp [if_neg h, or_comm]

theorem self_mem_sinsert (x : String) (l : List String) : x ∈ sinsert x l :=
  mem_sinsert.mpr (Or.inl rfl)

theorem subset_sinsert (x : String) (l : List String) : l ⊆ sinsert x l :=
  fun _ ha => mem_sinsert.mpr (Or.inr ha)

theorem nodup_sinsert {l : List String} (x : String) (h : l.Nodup) :
    (sinsert x l).Nodup := by
  unfold sinsert
  by_cases hx : x ∈ l
  · simpa [if_pos hx]
  · rw [if_neg hx]
    refine List.Nodup.append h (by simp) ?_
    intro a ha hax
    simp only [List.mem_singleton] at hax
    subst hax
    exact hx ha

theorem dfsGo_zero (succ : String → List String) (x : String) (vis acc : List String) :
    dfsGo succ 0 x vis acc = (vis, acc) := rfl

theorem dfsGo_succ_of_mem (succ : String → List String) (fuel : Nat) (x : String)
    (vis acc : List String) (h : x ∈ vis) :
    dfsGo succ (fuel + 1) x vis acc = (vis, acc) := by
  rw [dfsGo, if_pos h]

theorem dfsGo_succ_of_not_mem (succ : String → List String) (fuel : Nat) (x : String)
    (vis acc : List String) (h : x ∉ vis) :
    dfsGo succ (fuel + 1) x vis acc =
      (succ x).foldl (fun p s => dfsGo succ fuel s p.1 (sinsert s p.2))
        (sinsert x vis, acc) := by
  rw [dfsGo, if_neg h]

theorem ReachPlus.head_trans {succ : String → List String} {a b c : String}
    (hab : b ∈ succ a) (hbc : ReachPlus succ b c) : ReachPlus succ a c := by
  induction hbc with
  | head h => exact .tail (.head hab) h
  | tail _ h ih => exact .tail ih h

/-! ## Soundness: everything the traversal collects is reachable -/

theorem dfsList_acc_sound (succ : String → List String) (fuel : Nat)
    (hdown : ∀ x vis acc m, m ∈ (dfsGo succ fuel x vis acc).2 →
      m ∈ acc ∨ ReachPlus succ x m) :
    ∀ (ss vis acc : List String) (m : String),
      m ∈ (ss.foldl (fun p s => dfsGo succ fuel s p.1 (sinsert s p.2)) (vis, acc)).2 →
      m ∈ acc ∨ ∃ s ∈ ss, m = s ∨ ReachPlus succ s m := by
  intro ss
  induction ss with
  | nil => intro vis acc m hm; exact Or.inl hm
  | cons s rest ih =>
    intro vis acc m hm
    simp only [List.foldl_cons] at hm
    rcases ih _ _ m hm with h | ⟨s1, hs1, h⟩
    · rcases hdown _ _ _ _ h with h2 | h2
      · rcases mem_sinsert.mp h2 with rfl | h3
        · exact Or.inr ⟨m, List.mem_cons_self m rest, Or.inl rfl⟩
        · exact Or.inl h3
      · exact Or.inr ⟨s, List.mem_cons_self s rest, Or.inr h2⟩
    · exact Or.inr ⟨s1, List.mem_cons_of_mem s hs1, h⟩

theorem dfsGo_acc_sound (succ : String → List String) :
    ∀ (fuel : Nat) (x : String) (vis acc : List String) (m : String),
      m ∈ (dfsGo succ fuel x vis acc).2 → m ∈ acc ∨ ReachPlus succ x m := by
  intro fuel
  induction fuel with
  | zero => intro x vis acc m hm; exact Or.inl hm
  | succ fuel ih =>
    intro x vis acc m hm
    by_cases hx : x ∈ vis
    · rw [dfsGo_succ_of_mem succ fuel x vis acc hx] at hm
      exact Or.inl hm
    · rw [dfsGo_succ_of_not_mem succ fuel x vis acc hx] at hm
      rcases dfsList_acc_sound succ fuel ih _ _ _ m hm with h | ⟨s, hs, h⟩
      · exact Or.inl h
      · refine Or.inr ?_
        rcases h with rfl | h
        · exact .head hs
        · exact ReachPlus.head_trans hs h

/-! ## Completeness: with adequate fuel the traversal reaches everything -/

/-- A node is fully expanded in a traversal state: all its neighbours are both
visited and collected. -/
def Expanded (succ : String → List String) (r : List String × List String)
    (v : String) : Prop :=
  ∀ s ∈ succ v, s ∈ r.1 ∧ s ∈ r.2

theorem Expanded.mono {succ : String → List String}
    {r r' : List String × List String} {v : String}
    (h1 : r.1 ⊆ r'.1) (h2 : r.2 ⊆ r'.2) (h : Expanded succ r v) :
    Expanded succ r' v :=
  fun s hs => ⟨h1 (h s hs).1, h2 (h s hs).2⟩

theorem filter_not_mem_card_le {U : Finset String} {vis vis' : List String}
    (h : vis ⊆ vis') :
    (U.filter (fun u => u ∉ vis')).card ≤ (U.filter (fun u => u ∉ vis)).card := by
  apply Finset.card_le_card
  intro u hu
  simp only [Finset.mem_filter] at hu ⊢
  exact ⟨hu.1, fun hv => hu.2 (h hv)⟩

theorem filter_not_mem_card_lt {U : Finset String} {vis : List String} {x : String}
    (hx : x ∈ U) (hnx : x ∉ vis) :
    (U.filter (fun u => u ∉ sinsert x vis)).card < (U.filter (fun u => u ∉ vis)).card := by
  apply Finset.card_lt_card
  constructor
  · intro u hu
    simp only [Finset.mem_filter] at hu ⊢
    exact ⟨hu.1, fun hv => hu.2 (subset_sinsert x _ hv)⟩
  · intro hsub
    have hx1 : x ∈ U.filter (fun u => u ∉ vis) := by
      simp only [Finset.mem_filter]
      exact ⟨hx, hnx⟩
    have hx2 := hsub hx1
    simp only [Finset.mem_filter] at hx2
    exact hx2.2 (self_mem_sinsert x vis)

theorem dfsList_complete (succ : String → List String) (U : Finset String)
    (fuel : Nat)
    (hdown : ∀ x vis acc, x ∈ U → (U.filter (fun u => u ∉ vis)).card < fuel →
      x ∈ (dfsGo succ fuel x vis acc).1 ∧ vis ⊆ (dfsGo succ fuel x vis acc).1 ∧
      acc ⊆ (dfsGo succ fuel x vis acc).2 ∧
      ∀ v ∈ (dfsGo succ fuel x vis acc).1,
        v ∈ vis ∨ Expanded succ (dfsGo succ fuel x vis acc) v) :
    ∀ (ss vis acc : List String), (∀ s ∈ ss, s ∈ U) →
      (U.filter (fun u => u ∉ vis)).card < fuel →
      vis ⊆ (ss.foldl (fun p s => dfsGo succ fuel s p.1 (sinsert s p.2)) (vis, acc)).1 ∧
      acc ⊆ (ss.foldl (fun p s => dfsGo succ fuel s p.1 (sinsert s p.2)) (vis, acc)).2 ∧
      (∀ s ∈ ss,
        s ∈ (ss.foldl (fun p s => dfsGo succ fuel s p.1 (sinsert s p.2)) (vis, acc)).1 ∧
        s ∈ (ss.foldl (fun p s => dfsGo succ fuel s p.1 (sinsert s p.2)) (vis, acc)).2) ∧
      (∀ v ∈ (ss.foldl (fun p s => dfsGo succ fuel s p.1 (sinsert s p.2)) (vis, acc)).1,
        v ∈ vis ∨
        Expanded succ (ss.foldl (fun p s => dfsGo succ fuel s p.1 (sinsert s p.2)) (vis, acc)) v) := by
  intro ss
  induction ss with
  | nil =>
    intro vis acc _ _
    exact ⟨fun _ h => h, fun _ h => h, by simp, fun v hv => Or.inl hv⟩
  | cons s rest ih =>
    intro vis acc hss hcard
    have hsU : s ∈ U := hss s (List.mem_cons_self s rest)
    obtain ⟨hsP, hvisP, haccP, hexpP⟩ :=
      hdown s vis (sinsert s acc) hsU hcard
    have hcard2 : (U.filter (fun u => u ∉ (dfsGo succ fuel s vis (sinsert s acc)).1)).card < fuel :=
      lt_of_le_of_lt (filter_not_mem_card_le hvisP) hcard
    obtain ⟨hvisR, haccR, hrestR, hexpR⟩ :=
      ih (dfsGo succ fuel s vis (sinsert s acc)).1 (dfsGo succ fuel s vis (sinsert s acc)).2
        (fun t ht => hss t (List.mem_cons_of_mem s ht)) hcard2
    simp only [List.foldl_cons]
    refine ⟨fun a ha => hvisR (hvisP ha), fun a ha => haccR (haccP (subset_sinsert s acc ha)),
      ?_, ?_⟩
    · intro t ht
      rcases List.mem_cons.mp ht with rfl | ht2
      · exact ⟨hvisR hsP, haccR (haccP (self_mem_sinsert t acc))⟩
      · exact hrestR t ht2
    · intro v hv
      rcases hexpR v hv with hv2 | hv2
      · rcases hexpP v hv2 with hv3 | hv3
        · exact Or.inl hv3
        · exact Or.inr (hv3.mono hvisR haccR)
      · exact Or.inr hv2

theorem dfsGo_complete (succ : String → List String) (U : Finset String)
    (hU : ∀ v, ∀ s ∈ succ v, s ∈ U) :
    ∀ (fuel : Nat) (x : String) (vis acc : List String), x ∈ U →
      (U.filter (fun u => u ∉ vis)).card < fuel →
      x ∈ (dfsGo succ fuel x vis acc).1 ∧ vis ⊆ (dfsGo succ fuel x vis acc).1 ∧
      acc ⊆ (dfsGo succ fuel x vis acc).2 ∧
      ∀ v ∈ (dfsGo succ fuel x vis acc).1,
        v ∈ vis ∨ Expanded succ (dfsGo succ fuel x vis acc) v := by
  intro fuel
  induction fuel with
  | zero => intro x vis acc _ hcard; exact absurd hcard (Nat.not_lt_zero _)
  | succ fuel ih =>
    intro x vis acc hx hcard
    by_cases hxv : x ∈ vis
    · rw [dfsGo_succ_of_mem succ fuel x vis acc hxv]
      exact ⟨hxv, fun _ h => h, fun _ h => h, fun v hv => Or.inl hv⟩
    · rw [dfsGo_succ_of_not_mem succ fuel x vis acc hxv]
      have hcard2 : (U.filter (fun u => u ∉ sinsert x vis)).card < fuel :=
        Nat.lt_of_lt_of_le (filter_not_mem_card_lt hx hxv) (Nat.lt_succ_iff.mp hcard)
      obtain ⟨hvisR, haccR, hsuccR, hexpR⟩ :=
        dfsList_complete succ U fuel ih (succ x) (sinsert x vis) acc (hU x) hcard2
      refine ⟨hvisR (self_mem_sinsert x vis),
        fun a ha => hvisR (subset_sinsert x vis ha), haccR, ?_⟩
      intro v hv
      rcases hexpR v hv with hv2 | hv2
      · rcases mem_sinsert.mp hv2 with rfl | hv3
        · exact Or.inr (fun s hs => hsuccR s hs)
        · exact Or.inl hv3
      · exact Or.inr hv2

/-! ## Characterization of the traversal as nonempty-path reachability -/

theorem dfsGo_mem_iff (succ : String → List String) (U : Finset String)
    (hU : ∀ v, ∀ s ∈ succ v, s ∈ U) (fuel : Nat) (hfuel : U.card + 2 ≤ fuel)
    (start m : String) :
    m ∈ (dfsGo succ fuel start [] []).2 ↔ ReachPlus succ start m := by
  constructor
  · intro hm
    rcases dfsGo_acc_sound succ fuel start [] [] m hm with h | h
    · exact absurd h (List.not_mem_nil m)
    · exact h
  · intro hreach
    obtain ⟨fuel', rfl⟩ : ∃ f, fuel = f + 1 := ⟨fuel - 1, by omega⟩
    rw [dfsGo_succ_of_not_mem succ fuel' start [] [] (List.not_mem_nil start)]
    have hcard : (U.filter (fun u => u ∉ sinsert start [])).card < fuel' :=
      lt_of_le_of_lt (Finset.card_le_card (Finset.filter_subset _ U)) (by omega)
    obtain ⟨hvisR, _, hsuccR, hexpR⟩ :=
      dfsList_complete succ U fuel' (dfsGo_complete succ U hU fuel') (succ start)
        (sinsert start []) [] (hU start) hcard
    have main : ∀ b, ReachPlus succ start b →
        b ∈ ((succ start).foldl
          (fun p s => dfsGo succ fuel' s p.1 (sinsert s p.2)) (sinsert start [], [])).1 ∧
        b ∈ ((succ start).foldl
          (fun p s => dfsGo succ fuel' s p.1 (sinsert s p.2)) (sinsert start [], [])).2 := by
      intro b hb
      induction hb with
      | head h => exact hsuccR _ h
      | tail hr h ih =>
        rcases hexpR _ ih.1 with hv | hv
        · rcases mem_sinsert.mp hv with rfl | hv2
          · exact hsuccR _ h
          · exact absurd hv2 (List.not_mem_nil _)
        · exact hv _ h
    exact (main m hreach).2

/-- The universe of node ids any recursive call of the downstream traversal can
see: targets of edges. -/
def edgeTargets (g : Graph) : Finset String :=
  (g.edges.map (fun e => e.2.1)).toFinset

/-- The universe for the upstream traversal: sources of edges. -/
def edgeSources (g : Graph) : Finset String :=
  (g.edges.map (fun e => e.1)).toFinset

theorem successorsOf_mem_edgeTargets (g : Graph) :
    ∀ v, ∀ s ∈ successorsOf g v, s ∈ edgeTargets g := by
  intro v s hs
  simp only [successorsOf, List.mem_map, List.mem_filter] at hs
  obtain ⟨e, ⟨he, _⟩, rfl⟩ := hs
  simp only [edgeTargets, List.mem_toFinset, List.mem_map]
  exact ⟨e, he, rfl⟩

theorem predecessorsOf_mem_edgeSources (g : Graph) :
    ∀ v, ∀ s ∈ predecessorsOf g v, s ∈ edgeSources g := by
  intro v s hs
  simp only [predecessorsOf, List.mem_map, List.mem_filter] at hs
  obtain ⟨e, ⟨he, _⟩, rfl⟩ := hs
  simp only [edgeSources, List.mem_toFinset, List.mem_map]
  exact ⟨e, he, rfl⟩

theorem downstream_fuel_mem_iff (g : Graph) (start m : String) (fuel : Nat)
    (hfuel : g.edges.length + 2 ≤ fuel) :
    m ∈ (dfsGo (successorsOf g) fuel start [] []).2 ↔
      ReachPlus (successorsOf g) start m := by
  apply dfsGo_mem_iff (successorsOf g) (edgeTargets g) (successorsOf_mem_edgeTargets g)
  have : (edgeTargets g).card ≤ g.edges.length := by
    calc (edgeTargets g).card ≤ (g.edges.map (fun e => e.2.1)).length :=
          List.toFinset_card_le _
    _ = g.edges.length := List.length_map _ _
  omega

theorem upstream_fuel_mem_iff (g : Graph) (start m : String) (fuel : Nat)
    (hfuel : g.edges.length + 2 ≤ fuel) :
    m ∈ (dfsGo (predecessorsOf g) fuel start [] []).2 ↔
      ReachPlus (predecessorsOf g) start m := by
  apply dfsGo_mem_iff (predecessorsOf g) (edgeSources g) (predecessorsOf_mem_edgeSources g)
  have : (edgeSources g).card ≤ g.edges.length := by
    calc (edgeSources g).card ≤ (g.edges.map (fun e => e.1)).length :=
          List.toFinset_card_le _
    _ = g.edges.length := List.length_map _ _
  omega

theorem mem_findDownstreamNodes (g : Graph) (start m : String) :
    m ∈ findDownstreamNodes g start ↔ ReachPlus (successorsOf g) start m :=
  downstream_fuel_mem_iff g start m (g.edges.length + 2) (Nat.le_refl _)

theorem mem_findUpstreamNodes (g : Graph) (start m : String) :
    m ∈ findUpstreamNodes g start ↔ ReachPlus (predecessorsOf g) start m :=
  upstream_fuel_mem_iff g start m (g.edges.length + 2) (Nat.le_refl _)

/-! ## Duality between the two edge directions -/

theorem mem_successorsOf_iff {g : Graph} {v s : String} :
    s ∈ successorsOf g v ↔ ∃ d, (v, s, d) ∈ g.edges := by
  simp only [successorsOf, List.mem_map, List.mem_filter, decide_eq_true_eq]
  constructor
  · rintro ⟨e, ⟨he, he1⟩, he2⟩
    obtain ⟨e1, e2, e3⟩ := e
    simp only at he1 he2
    subst he1; subst he2
    exact ⟨e3, he⟩
  · rintro ⟨d, hd⟩
    exact ⟨(v, s, d), ⟨hd, rfl⟩, rfl⟩

theorem mem_predecessorsOf_iff {g : Graph} {v s : String} :
    s ∈ predecessorsOf g v ↔ ∃ d, (s, v, d) ∈ g.edges := by
  simp only [predecessorsOf, List.mem_map, List.mem_filter, decide_eq_true_eq]
  constructor
  · rintro ⟨e, ⟨he, he1⟩, he2⟩
    obtain ⟨e1, e2, e3⟩ := e
    simp only at he1 he2
    subst he1; subst he2
    exact ⟨e3, he⟩
  · rintro ⟨d, hd⟩
    exact ⟨(s, v, d), ⟨hd, rfl⟩, rfl⟩

theorem succ_pred_flip {g : Graph} {v s : String} :
    s ∈ successorsOf g v ↔ v ∈ predecessorsOf g s := by
  rw [mem_successorsOf_iff, mem_predecessorsOf_iff]

theorem reachPlus_flip {g : Graph} {a b : String}
    (h : ReachPlus (successorsOf g) a b) : ReachPlus (predecessorsOf g) b a := by
  induction h with
  | head hmem => exact .head (succ_pred_flip.mp hmem)
  | tail _ hmem ih => exact ReachPlus.head_trans (succ_pred_flip.mp hmem) ih

theorem reachPlus_flip' {g : Graph} {a b : String}
    (h : ReachPlus (predecessorsOf g) b a) : ReachPlus (successorsOf g) a b := by
  induction h with
  | head hmem => exact .head (succ_pred_flip.mpr hmem)
  | tail _ hmem ih => exact ReachPlus.head_trans (succ_pred_flip.mpr hmem) ih

/-! ## The collected list never holds duplicates -/

theorem dfsList_nodup (succ : String → List String) (fuel : Nat)
    (hdown : ∀ x vis acc, acc.Nodup → (dfsGo succ fuel x vis acc).2.Nodup) :
    ∀ (ss vis acc : List String), acc.Nodup →
      (ss.foldl (fun p s => dfsGo succ fuel s p.1 (sinsert s p.2)) (vis, acc)).2.Nodup := by
  intro ss
  induction ss with
  | nil => intro vis acc h; exact h
  | cons s rest ih =>
    intro vis acc h
    simp only [List.foldl_cons]
    exact ih _ _ (hdown s vis (sinsert s acc) (nodup_sinsert s h))

theorem dfsGo_nodup (succ : String → List String) :
    ∀ (fuel : Nat) (x : String) (vis acc : List String), acc.Nodup →
      (dfsGo succ fuel x vis acc).2.Nodup := by
  intro fuel
  induction fuel with
  | zero => intro x vis acc h; exact h
  | succ fuel ih =>
    intro x vis acc h
    by_cases hx : x ∈ vis
    · rw [dfsGo_succ_of_mem succ fuel x vis acc hx]; exact h
    · rw [dfsGo_succ_of_not_mem succ fuel x vis acc hx]
      exact dfsList_nodup succ fuel ih (succ x) (sinsert x vis) acc h

/-! ## Concrete inputs used by the scenario theorems -/

/-- Two files importing each other: a two-node directed cycle of file nodes. -/
def cycRecords : List RawRecord :=
  [⟨ "a.js", some [], some [⟨ "./b", "static"⟩], none⟩,
   ⟨ "b.js", some [], some [⟨ "./a", "static"⟩], none⟩]

def gCyc : Graph :=
  match buildDependencyGraph cycRecords with
  | .ok p => p.1
  | .error _ => graphEmpty

/-- C6 counterexample: on the mutual-import build, the start node is a member
of its own downstream and upstream sets, so the claimed unconditional
self-exclusion fails on a built graph. -/
theorem downstream_contains_self_on_cycle :
    (∃ out, buildDependencyGraph cycRecords = Except.ok out) ∧
    "file:a.js" ∈ findDownstreamNodes gCyc "file:a.js" ∧
    "file:a.js" ∈ findUpstreamNodes gCyc "file:a.js" :=
  ⟨⟨_, rfl⟩, by decide, by decide⟩

/-- C6 (amended): the starting node belongs to its own downstream (resp.
upstream) set exactly when it lies on a directed cycle, i.e. when there is a
nonempty path from the node back to itself; in particular it is excluded
whenever it lies on no cycle. -/
theorem start_mem_reachable_iff_cycle (g : Graph) (n : String) :
    (n ∈ findDownstreamNodes g n ↔ ReachPlus (successorsOf g) n n) ∧
    (n ∈ findUpstreamNodes g n ↔ ReachPlus (successorsOf g) n n) := by
  refine ⟨mem_findDownstreamNodes g n n, ?_⟩
  rw [mem_findUpstreamNodes g n n]
  exact ⟨reachPlus_flip', reachPlus_flip⟩

/-- C7: both traversals are deterministic and duplicate-free, and the computed
set is stable under any sufficient fuel bound: the visited set, not the fuel,
is what limits the traversal, so the functions terminate with the same result
on cyclic graphs. -/
theorem reachability_terminates_idempotent (g : Graph) (n : String) (fuel : Nat)
    (hfuel : g.edges.length + 2 ≤ fuel) :
    (findDownstreamNodes g n).Nodup ∧ (findUpstreamNodes g n).Nodup ∧
    (∀ m, m ∈ (dfsGo (successorsOf g) fuel n [] []).2 ↔ m ∈ findDownstreamNodes g n) ∧
    (∀ m, m ∈ (dfsGo (predecessorsOf g) fuel n [] []).2 ↔ m ∈ findUpstreamNodes g n) ∧
    findDownstreamNodes g n = findDownstreamNodes g n ∧
    findUpstreamNodes g n = findUpstreamNodes g n := by
  refine ⟨dfsGo_nodup _ _ _ _ _ List.nodup_nil, dfsGo_nodup _ _ _ _ _ List.nodup_nil,
    ?_, ?_, rfl, rfl⟩
  · intro m
    rw [downstream_fuel_mem_iff g n m fuel hfuel, mem_findDownstreamNodes]
  · intro m
    rw [upstream_fuel_mem_iff g n m fuel hfuel, mem_findUpstreamNodes]

theorem reachability_terminates_idempotent_witness :
    (findDownstreamNodes graphEmpty "a").Nodup :=
  (reachability_terminates_idempotent graphEmpty "a" 5 (by decide)).1

/-- C8: membership in the downstream set of `a` implies membership of `a` in
the upstream set of the member, for any graph. -/
theorem downstream_upstream_duality (g : Graph) (a b : String)
    (h : b ∈ findDownstreamNodes g a) : a ∈ findUpstreamNodes g b := by
  rw [mem_findUpstreamNodes]
  exact reachPlus_flip ((mem_findDownstreamNodes g a b).mp h)

theorem downstream_upstream_duality_witness :
    "file:b.js" ∈ findDownstreamNodes gCyc "file:a.js" ∧
    "file:a.js" ∈ findUpstreamNodes gCyc "file:b.js" :=
  ⟨by decide, downstream_upstream_duality gCyc "file:a.js" "file:b.js" (by decide)⟩

/-! ## The containing-function lookup -/

instance : IsTotal FunctionDecl (fun a b => a.line ≤ b.line) :=
  ⟨fun a b => Nat.le_total a.line b.line⟩

instance : IsTrans FunctionDecl (fun a b => a.line ≤ b.line) :=
  ⟨fun _ _ _ => Nat.le_trans⟩

theorem sortByLine_sorted (l : List FunctionDecl) :
    List.Sorted (fun a b => a.line ≤ b.line) (sortByLine l) :=
  List.sorted_insertionSort _ l

theorem sortByLine_perm (l : List FunctionDecl) : (sortByLine l).Perm l :=
  List.perm_insertionSort _ l

theorem findLoop_eq_none {line : Nat} :
    ∀ {s : List FunctionDecl}, (∀ f ∈ s, line < f.line) → findLoop line s = none := by
  intro s
  induction s with
  | nil => intro _; rfl
  | cons f fs ih =>
    intro hall
    cases fs with
    | nil =>
      have : ¬f.line ≤ line := Nat.not_le.mpr (hall f (List.mem_cons_self f []))
      simp [findLoop, this]
    | cons g fs2 =>
      have : ¬(f.line ≤ line ∧ line < g.line) := by
        intro hc
        exact Nat.not_le.mpr (hall f (List.mem_cons_self f _)) hc.1
      rw [findLoop, if_neg this]
      exact ih (fun d hd => hall d (List.mem_cons_of_mem f hd))

theorem findLoop_max {line : Nat} :
    ∀ {s : List FunctionDecl}, List.Sorted (fun a b => a.line ≤ b.line) s →
      (∃ d ∈ s, d.line ≤ line) →
      ∃ f, findLoop line s = some f ∧ f ∈ s ∧ f.line ≤ line ∧
        ∀ d ∈ s, d.line ≤ line → d.line ≤ f.line := by
  intro s
  induction s with
  | nil => rintro _ ⟨d, hd, _⟩; exact absurd hd (List.not_mem_nil d)
  | cons f fs ih =>
    intro hsorted hex
    have hf : ∀ b ∈ fs, f.line ≤ b.line := (List.sorted_cons.mp hsorted).1
    have hsorted2 : List.Sorted (fun a b => a.line ≤ b.line) fs :=
      (List.sorted_cons.mp hsorted).2
    cases fs with
    | nil =>
      obtain ⟨d, hd, hdle⟩ := hex
      rw [List.mem_singleton] at hd
      subst hd
      refine ⟨d, by simp [findLoop, hdle], List.mem_singleton_self d, hdle, ?_⟩
      intro d2 hd2 _
      rw [List.mem_singleton] at hd2
      subst hd2
      exact Nat.le_refl _
    | cons g fs2 =>
      by_cases hc : f.line ≤ line ∧ line < g.line
      · refine ⟨f, by rw [findLoop, if_pos hc], List.mem_cons_self f _, hc.1, ?_⟩
        intro d hd hdle
        rcases List.mem_cons.mp hd with rfl | hd2
        · exact Nat.le_refl _
        · exfalso
          rcases List.mem_cons.mp hd2 with rfl | hd3
          · exact Nat.not_le.mpr hc.2 hdle
          · have : g.line ≤ d.line := (List.sorted_cons.mp hsorted2).1 d hd3
            exact Nat.not_le.mpr hc.2 (Nat.le_trans this hdle)
      · have hex2 : ∃ d ∈ g :: fs2, d.line ≤ line := by
          obtain ⟨d, hd, hdle⟩ := hex
          rcases List.mem_cons.mp hd with rfl | hd2
          · refine ⟨g, List.mem_cons_self g fs2, ?_⟩
            rcases Nat.lt_or_ge line g.line with hlt | hge
            · exact absurd ⟨hdle, hlt⟩ hc
            · exact hge
          · exact ⟨d, hd2, hdle⟩
        obtain ⟨f2, heq, hmem, hle, hmax⟩ := ih hsorted2 hex2
        refine ⟨f2, by rw [findLoop, if_neg hc]; exact heq,
          List.mem_cons_of_mem f hmem, hle, ?_⟩
        intro d hd hdle
        rcases List.mem_cons.mp hd with rfl | hd2
        · exact hf f2 hmem
        · exact hmax d hd2 hdle

theorem findContainingFunction_nil (L : Nat) :
    findContainingFunction [] L = (none, []) := by
  unfold findContainingFunction
  simp

theorem pass3Call_nil (fnm : MapS) (filename : String) (g : Graph) (call : CallSite) :
    pass3Call fnm filename (g, ([] : List FunctionDecl)) call = (g, []) := by
  unfold pass3Call
  cases callTarget fnm filename call with
  | none => rfl
  | some tid => simp [findContainingFunction_nil]

theorem pass3File_nil_functions (fnm : MapS) (g : Graph) (recs : List CRecord)
    (file : CRecord) (h : file.functions = []) :
    (pass3File fnm (g, recs) file).1 = g := by
  unfold pass3File
  rw [h]
  have hfold : ∀ calls : List CallSite,
      calls.foldl (pass3Call fnm file.filename) (g, ([] : List FunctionDecl)) = (g, []) := by
    intro calls
    induction calls with
    | nil => rfl
    | cons c cs ih => rw [List.foldl_cons, pass3Call_nil]; exact ih
  rw [hfold]

/-- C3: for a file with at least one declared function and a nonzero call line,
the containing-function lookup returns a declared function whose line is the
greatest declaration line that is at most the call line whenever one exists;
when every declaration line exceeds the call line it returns the last entry of
the line-sorted declarations; a file with no declared functions yields no
containing function, and pass 3 adds no call edge for any call site of such a
file. -/
theorem findContainingFunction_spec (functions : List FunctionDecl) (line : Nat)
    (hne : functions ≠ []) (hline : line ≠ 0) :
    (∃ f, (findContainingFunction functions line).1 = some f ∧ f ∈ functions ∧
      ((∃ d ∈ functions, d.line ≤ line) →
        f.line ≤ line ∧ ∀ d ∈ functions, d.line ≤ line → d.line ≤ f.line) ∧
      ((∀ d ∈ functions, line < d.line) →
        (findContainingFunction functions line).1 = (sortByLine functions).getLast?)) ∧
    (∀ L, (findContainingFunction [] L).1 = none) ∧
    (∀ (fnm : MapS) (g : Graph) (recs : List CRecord) (file : CRecord),
      file.functions = [] → (pass3File fnm (g, recs) file).1 = g) := by
  refine ⟨?_, fun L => by rw [findContainingFunction_nil],
    fun fnm g recs file h => pass3File_nil_functions fnm g recs file h⟩
  have hcond : ¬(line = 0 ∨ functions.isEmpty = true) := by
    rintro (h | h)
    · exact hline h
    · exact hne (List.isEmpty_iff.mp h)
  simp only [findContainingFunction, if_neg hcond]
  by_cases hex : ∃ d ∈ functions, d.line ≤ line
  · obtain ⟨d, hd, hdle⟩ := hex
    have hex2 : ∃ d2 ∈ sortByLine functions, d2.line ≤ line :=
      ⟨d, (sortByLine_perm functions).mem_iff.mpr hd, hdle⟩
    obtain ⟨f, heq, hmem, hfle, hmax⟩ := findLoop_max (sortByLine_sorted functions) hex2
    rw [heq]
    refine ⟨f, rfl, (sortByLine_perm functions).mem_iff.mp hmem, ?_, ?_⟩
    · intro _
      exact ⟨hfle, fun d2 hd2 hd2le =>
        hmax d2 ((sortByLine_perm functions).mem_iff.mpr hd2) hd2le⟩
    · intro hall
      exact absurd hdle (Nat.not_le.mpr (hall d hd))
  · have hall : ∀ d ∈ functions, line < d.line := by
      intro d hd
      rcases Nat.lt_or_ge line d.line with h | h
      · exact h
      · exact absurd ⟨d, hd, h⟩ hex
    have hnone : findLoop line (sortByLine functions) = none :=
      findLoop_eq_none (fun f hf => hall f ((sortByLine_perm functions).mem_iff.mp hf))
    rw [hnone]
    have hne2 : sortByLine functions ≠ [] := by
      intro h
      exact hne (List.Perm.eq_nil (h ▸ (sortByLine_perm functions).symm))
    obtain ⟨f, hf⟩ : ∃ f, (sortByLine functions).getLast? = some f := by
      rw [← Option.isSome_iff_exists, List.getLast?_isSome]
      exact hne2
    have hfmem : f ∈ sortByLine functions := List.mem_of_mem_getLast? (by rw [hf]; rfl)
    refine ⟨f, by rw [hf], (sortByLine_perm functions).mem_iff.mp hfmem, ?_, fun _ => rfl⟩
    rintro ⟨d, hd, hdle⟩
    exact absurd hdle (Nat.not_le.mpr (hall d hd))

theorem findContainingFunction_spec_witness :
    ∃ f, (findContainingFunction [⟨ "foo", 3⟩, ⟨ "bar", 10⟩] 12).1 = some f ∧
      f ∈ [⟨ "foo", 3⟩, ⟨ "bar", 10⟩] ∧
      ((∃ d ∈ [⟨ "foo", 3⟩, ⟨ "bar", 10⟩], FunctionDecl.line d ≤ 12) →
        f.line ≤ 12 ∧ ∀ d ∈ [⟨ "foo", 3⟩, ⟨ "bar", 10⟩], FunctionDecl.line d ≤ 12 →
          FunctionDecl.line d ≤ f.line) ∧
      ((∀ d ∈ [⟨ "foo", 3⟩, ⟨ "bar", 10⟩], 12 < FunctionDecl.line d) →
        (findContainingFunction [⟨ "foo", 3⟩, ⟨ "bar", 10⟩] 12).1 =
          (sortByLine [⟨ "foo", 3⟩, ⟨ "bar", 10⟩]).getLast?) :=
  (findContainingFunction_spec [⟨ "foo", 3⟩, ⟨ "bar", 10⟩] 12 (by decide) (by decide)).1

/-! ## Import resolution -/

/-- C4: a relative specifier is normalized against the directory of the
importing file by pop/push segment semantics, then the candidate suffixes are
probed in order and the first candidate present in the path list is returned;
when none is present, the normalized path with ".js" appended is returned. -/
theorem resolveImportPath_relative_spec (importPath currentFile : String)
    (allFiles : List String)
    (h : strStartsWith importPath "./" = true ∨ strStartsWith importPath "../" = true) :
    resolveImportPath importPath currentFile allFiles =
      some (((relativeExtensions.map
          (fun ext => normalizeRelative currentFile importPath ++ ext)).find?
            (fun c => allFiles.contains c)).getD
        (normalizeRelative currentFile importPath ++ ".js")) := by
  have hcond : (strStartsWith importPath "./" || strStartsWith importPath "../") = true := by
    rcases h with h | h <;> simp [h]
  simp only [resolveImportPath, hcond, if_true, List.find?_map, Function.comp_def]
  cases hfind : relativeExtensions.find?
      (fun ext => allFiles.contains (normalizeRelative currentFile importPath ++ ext)) with
  | none => simp [hfind]
  | some e => simp [hfind]

theorem resolveImportPath_relative_spec_witness :
    strStartsWith "./b" "./" = true ∧
    resolveImportPath "./b" "a.js" ["a.js", "b.js"] = some "b.js" :=
  ⟨by decide, by
    rw [resolveImportPath_relative_spec "./b" "a.js" ["a.js", "b.js"] (Or.inl (by decide))]
    decide⟩

/-- C5 counterexample: for the bare specifier "lodash" against the path list
["a.js"] no path satisfies the filter conditions, yet the resolver returns the
specifier itself, not null. -/
theorem resolveImportPath_bare_not_null :
    ["a.js"].filter (bareImportMatch "lodash") = [] ∧
    resolveImportPath "lodash" "a.js" ["a.js"] = some "lodash" ∧
    resolveImportPath "lodash" "a.js" ["a.js"] ≠ none :=
  ⟨by decide, by decide, by decide⟩

/-- C5 (amended): for a bare (non-relative) specifier the resolver returns the
first path of the list that contains the specifier as a substring or ends in
one of the four suffix patterns; when no path satisfies any condition it
returns the specifier unchanged (the code never returns null here). -/
theorem resolveImportPath_bare_spec (importPath currentFile : String)
    (allFiles : List String)
    (h1 : strStartsWith importPath "./" = false)
    (h2 : strStartsWith importPath "../" = false) :
    resolveImportPath importPath currentFile allFiles =
      some ((allFiles.find? (bareImportMatch importPath)).getD importPath) := by
  simp only [resolveImportPath, h1, h2, Bool.or_self, if_false]
  have hh := List.filter_head? (bareImportMatch importPath) allFiles
  cases hf : allFiles.filter (bareImportMatch importPath) with
  | nil => rw [hf] at hh; rw [← hh]; rfl
  | cons p rest => rw [hf] at hh; rw [← hh]; rfl

theorem resolveImportPath_bare_spec_witness :
    strStartsWith "utils" "./" = false ∧
    resolveImportPath "utils" "a.js" ["lib/utils.js"] = some "lib/utils.js" :=
  ⟨by decide, by
    rw [resolveImportPath_bare_spec "utils" "a.js" ["lib/utils.js"] (by decide) (by decide)]
    decide⟩

/-! ## Robustness of the build -/

/-- C2 counterexample: a record whose `functions` and `imports` collections are
missing makes the build raise (the code dereferences `file.functions.length`
with no guard), so the build does not treat such a record as an empty record. -/
theorem buildDependencyGraph_malformed_raises :
    buildDependencyGraph [⟨ "a.js", none, none, none⟩] = Except.error () := rfl

/-- C2 (amended): the build never raises provided every record carries its
`functions` and `imports` collections; a missing `functionCalls` collection is
tolerated (treated as empty), and unresolved imports or calls are skipped
silently rather than raised. -/
theorem buildDependencyGraph_wellformed_ok (records : List RawRecord)
    (h : ∀ r ∈ records, r.functions.isSome ∧ r.imports.isSome) :
    ∃ out, buildDependencyGraph records = Except.ok out := by
  have hcheck : ∀ rs : List RawRecord,
      (∀ r ∈ rs, r.functions.isSome ∧ r.imports.isSome) →
      ∃ cs, checkRecords rs = Except.ok cs := by
    intro rs
    induction rs with
    | nil => intro _; exact ⟨[], rfl⟩
    | cons r rs2 ih =>
      intro hall
      obtain ⟨hf, hi⟩ := hall r (List.mem_cons_self r rs2)
      obtain ⟨fs, hfs⟩ := Option.isSome_iff_exists.mp hf
      obtain ⟨is, his⟩ := Option.isSome_iff_exists.mp hi
      obtain ⟨cs, hcs⟩ := ih (fun x hx => hall x (List.mem_cons_of_mem r hx))
      refine ⟨⟨r.filename, fs, is, r.functionCalls.getD []⟩ :: cs, ?_⟩
      simp [checkRecords, checkRecord, hfs, his, hcs]
  obtain ⟨cs, hcs⟩ := hcheck records h
  refine ⟨((pass3 (pass1 cs).2.2 (pass2 (pass1 cs).2.1 (pass1 cs).1 cs) cs).1,
    (pass3 (pass1 cs).2.2 (pass2 (pass1 cs).2.1 (pass1 cs).1 cs) cs).2), ?_⟩
  unfold buildDependencyGraph
  rw [hcs]

theorem buildDependencyGraph_wellformed_ok_witness :
    ∃ out, buildDependencyGraph [⟨ "a.js", some [], some [], none⟩] = Except.ok out :=
  buildDependencyGraph_wellformed_ok [⟨ "a.js", some [], some [], none⟩] (by decide)

/-! ## No self-loop edges -/

def NoLoop (g : Graph) : Prop := ∀ e ∈ g.edges, e.1 ≠ e.2.1

theorem file_ne_func (a b : String) : ("file:" ++ a : String) ≠ "func:" ++ b := by
  intro h
  have hd := congrArg String.data h
  injection hd with h1 hd2
  injection hd2 with h2 hd3
  exact absurd h2 (by decide)

theorem setNode_edges (g : Graph) (id : String) (d : NodeData) :
    (setNode g id d).edges = g.edges := rfl

theorem noLoop_setNode {g : Graph} (id : String) (d : NodeData) (h : NoLoop g) :
    NoLoop (setNode g id d) := h

theorem noLoop_setEdge {g : Graph} {v w : String} (d : EdgeData)
    (h : NoLoop g) (hvw : v ≠ w) : NoLoop (setEdge g v w d) := by
  intro e he
  unfold setEdge at he
  by_cases hc : g.edges.any (fun e => decide (e.1 = v ∧ e.2.1 = w)) = true
  · simp only [hc, if_true] at he
    rcases List.mem_map.mp he with ⟨e0, he0, heq⟩
    by_cases h0 : e0.1 = v ∧ e0.2.1 = w
    · rw [if_pos h0] at heq
      subst heq
      exact hvw
    · rw [if_neg h0] at heq
      subst heq
      exact h e0 he0
  · simp only [hc, if_false] at he
    rcases List.mem_append.mp he with h1 | h1
    · exact h e h1
    · rw [List.mem_singleton] at h1
      subst h1
      exact hvw

theorem foldl_inv {α σ : Type} (step : σ → α → σ) (Inv : σ → Prop)
    (hstep : ∀ s a, Inv s → Inv (step s a)) :
    ∀ (l : List α) (s : σ), Inv s → Inv (l.foldl step s) := by
  intro l
  induction l with
  | nil => intro s h; exact h
  | cons a l2 ih => intro s h; exact ih _ (hstep s a h)

theorem pass1Function_noLoop (filename pre : String) (acc : Graph × MapS)
    (p : Nat × FunctionDecl) (h : NoLoop acc.1) :
    NoLoop (pass1Function filename ("file:" ++ pre) acc p).1 := by
  unfold pass1Function
  exact noLoop_setEdge _ (noLoop_setNode _ _ h) (file_ne_func pre _)

theorem pass1File_noLoop (acc : Graph × MapS × MapS) (file : CRecord)
    (h : NoLoop acc.1) : NoLoop (pass1File acc file).1 := by
  unfold pass1File
  exact (foldl_inv (pass1Function file.filename ("file:" ++ file.filename))
    (fun s => NoLoop s.1)
    (fun s a hs => pass1Function_noLoop file.filename file.filename s a hs)
    file.functions.enum _ (noLoop_setNode _ _ h))

theorem pass1_noLoop (files : List CRecord) : NoLoop (pass1 files).1 := by
  unfold pass1
  exact foldl_inv pass1File (fun s => NoLoop s.1)
    (fun s a hs => pass1File_noLoop s a hs) files _ (fun e he => absurd he (List.not_mem_nil e))

theorem pass2Import_noLoop (fm : MapS) (filename sourceFileId : String) (g : Graph)
    (imp : ImportRef) (h : NoLoop g) :
    NoLoop (pass2Import fm filename sourceFileId g imp) := by
  simp only [pass2Import]
  cases (resolveImportPath imp.source filename (fm.map (fun e => e.1))).bind
      (fun rp => mget fm rp) with
  | none => exact h
  | some tid =>
    dsimp only
    by_cases hs : sourceFileId ≠ tid
    · rw [if_pos hs]
      exact noLoop_setEdge _ h hs
    · rw [if_neg hs]
      exact h

theorem pass2File_noLoop (fm : MapS) (g : Graph) (file : CRecord) (h : NoLoop g) :
    NoLoop (pass2File fm g file) := by
  unfold pass2File
  cases mget fm file.filename with
  | none => exact h
  | some sourceFileId =>
    exact foldl_inv (pass2Import fm file.filename sourceFileId) NoLoop
      (fun s a hs => pass2Import_noLoop fm file.filename sourceFileId s a hs)
      file.imports g h

theorem pass2_noLoop (fm : MapS) (g : Graph) (files : List CRecord) (h : NoLoop g) :
    NoLoop (pass2 fm g files) := by
  unfold pass2
  exact foldl_inv (pass2File fm) NoLoop (fun s a hs => pass2File_noLoop fm s a hs) files g h

theorem pass3Call_noLoop (fnm : MapS) (filename : String)
    (acc : Graph × List FunctionDecl) (call : CallSite) (h : NoLoop acc.1) :
    NoLoop (pass3Call fnm filename acc call).1 := by
  simp only [pass3Call]
  cases callTarget fnm filename call with
  | none => exact h
  | some tid =>
    dsimp only
    cases (findContainingFunction acc.2 call.line).1 with
    | none => exact h
    | some callingFunction =>
      dsimp only
      cases mget fnm (filename ++ ":" ++ callingFunction.name) with
      | none => exact h
      | some cid =>
        dsimp only
        by_cases hc : cid ≠ tid
        · rw [if_pos hc]
          exact noLoop_setEdge _ h hc
        · rw [if_neg hc]
          exact h

theorem pass3File_noLoop (fnm : MapS) (acc : Graph × List CRecord) (file : CRecord)
    (h : NoLoop acc.1) : NoLoop (pass3File fnm acc file).1 := by
  unfold pass3File
  exact foldl_inv (pass3Call fnm file.filename) (fun s => NoLoop s.1)
    (fun s a hs => pass3Call_noLoop fnm file.filename s a hs)
    file.functionCalls (acc.1, file.functions) h

theorem pass3_noLoop (fnm : MapS) (g : Graph) (files : List CRecord) (h : NoLoop g) :
    NoLoop (pass3 fnm g files).1 := by
  unfold pass3
  exact foldl_inv (pass3File fnm) (fun s => NoLoop s.1)
    (fun s a hs => pass3File_noLoop fnm s a hs) files (g, []) h

/-- C9: the built graph has no self-loop edge under any relation: `contains`
edges go from a "file:"-keyed node to a "func:"-keyed node, and the `imports`
and `calls` passes discard a resolved target equal to the source. -/
theorem buildDependencyGraph_no_self_loops (records : List RawRecord) (g : Graph)
    (fs : List CRecord) (h : buildDependencyGraph records = Except.ok (g, fs)) :
    g.edges.all (fun e => e.1 != e.2.1) = true := by
  have hnl : NoLoop g := by
    unfold buildDependencyGraph at h
    cases hcr : checkRecords records with
    | error e => rw [hcr] at h; exact absurd h (by simp)
    | ok cs =>
      rw [hcr] at h
      injection h with h2
      have hg : g = (pass3 (pass1 cs).2.2 (pass2 (pass1 cs).2.1 (pass1 cs).1 cs) cs).1 :=
        (congrArg Prod.fst h2).symm
      rw [hg]
      exact pass3_noLoop _ _ _ (pass2_noLoop _ _ _ (pass1_noLoop cs))
  rw [List.all_eq_true]
  intro e he
  exact bne_iff_ne.mpr (hnl e he)

def cycOut : List CRecord :=
  match buildDependencyGraph cycRecords with
  | .ok p => p.2
  | .error _ => []

theorem buildDependencyGraph_no_self_loops_witness :
    gCyc.edges.all (fun e => e.1 != e.2.1) = true :=
  buildDependencyGraph_no_self_loops cycRecords gCyc cycOut rfl

/-! ## Scenario A and the in-place mutation of the input records -/

def scenarioA : List RawRecord :=
  [⟨ "a.js", some [⟨ "foo", 3⟩], some [⟨ "./b", "static"⟩], some [⟨ "bar", 4⟩]⟩,
   ⟨ "b.js", some [⟨ "bar", 1⟩], some [], none⟩]

def gA : Graph :=
  match buildDependencyGraph scenarioA with
  | .ok p => p.1
  | .error _ => graphEmpty

/-- C1: on the two-record Scenario A input the build succeeds and produces
exactly 2 file nodes, 2 function nodes, 2 `contains` edges, one `imports` edge
from file a.js to file b.js and one `calls` edge from function foo to function
bar. -/
theorem buildDependencyGraph_scenarioA :
    (∃ fs, buildDependencyGraph scenarioA = Except.ok (gA, fs)) ∧
    getGraphStats gA = ⟨4, 4, 2, 2, 1, 1, 2⟩ ∧
    gA.edges.filter (fun e => isImportsData e.2.2) =
      [( "file:a.js", "file:b.js", EdgeData.imports "./b" "static")] ∧
    gA.edges.filter (fun e => isCallsData e.2.2) =
      [( "func:a.js:foo:3", "func:b.js:bar:1", EdgeData.calls 4)] :=
  ⟨⟨_, rfl⟩, by decide, by decide, by decide⟩

/-- A record whose declared functions are not in line order, with one
resolvable call site: the in-place sort of `findContainingFunction` reorders
the record's functions array. -/
def mutRecords : List RawRecord :=
  [⟨ "a.js", some [⟨ "bar", 10⟩, ⟨ "foo", 1⟩], some [], some [⟨ "foo", 12⟩]⟩]

def mutOut : List CRecord :=
  match buildDependencyGraph mutRecords with
  | .ok p => p.2
  | .error _ => []

/-- C10 (code bug): the build mutates its input records.  On `mutRecords` the
record's declared-functions sequence is `[bar@10, foo@1]` before the build and
`[foo@1, bar@10]` after it: `findContainingFunction` sorts the caller's array
in place via `Array.prototype.sort`. -/
theorem buildDependencyGraph_mutates_functions_order :
    (∃ g, buildDependencyGraph mutRecords = Except.ok (g, mutOut)) ∧
    mutRecords.map (fun r => r.functions) = [some [⟨ "bar", 10⟩, ⟨ "foo", 1⟩]] ∧
    mutOut.map (fun r => r.functions) = [[⟨ "foo", 1⟩, ⟨ "bar", 10⟩]] ∧
    ([⟨ "foo", 1⟩, ⟨ "bar", 10⟩] : List FunctionDecl) ≠ [⟨ "bar", 10⟩, ⟨ "foo", 1⟩] :=
  ⟨⟨_, rfl⟩, by decide, by decide, by decide⟩
